import Mathlib

/-!
# Verification of the rawrscope multi-rate audio mixing and centering core

This file gives a shallow embedding, in Lean, of the audio mixing engine
(`src/audio/mixer.rs`), the playback driver state relevant to submission
queueing (`src/audio/playback.rs`), the scope processing pipeline
(`src/scope.rs`) and the waveform-centering algorithms
(`src/scope/centering/*.rs`), and proves or refutes the specified
properties of those components.

Modelling conventions:
* `f32` sample values and duration/width fields are modelled as `ℚ`.
  All the properties settled here concern exact data movement
  (queueing, truncation, summation with zero, index arithmetic), where
  rational arithmetic agrees with the float computation performed by the
  code on the concrete inputs used.
* Rust `usize` arithmetic is modelled by `ℕ`; a `usize` subtraction that
  would panic on underflow is noted where it matters.  A float-to-`usize`
  `as` cast truncates toward zero and clamps negatives to `0`, which is
  `Int.toNat ∘ Int.floor` (equivalently `Nat.floor`) on the rational model.
* `HashMap` values are modelled as association lists with pairwise
  distinct keys; every fold the code performs over a map is
  order-independent or key-local, so list order is immaterial.
* A Rust `panic!`/`unwrap` failure is modelled by an `Option` returning
  `none`.
-/

namespace Rawrscope

/-! ## Submission (`src/audio/mixer.rs`, `MixedStream` / `Submission`) -/

/-- One per-rate stream of a `Submission`: the additively mixed samples and
the number of streams that have been added into it
(`MixedStream { mixed, num_streams }`). -/
structure MixedStream where
  mixed : List ℚ
  num_streams : ℕ
deriving DecidableEq, Repr

/-- Source: `Submission(HashMap<u32, MixedStream>)`: association list from sample
rate to mixed stream; keys are pairwise distinct. -/
structure Submission where
  entries : List (ℕ × MixedStream)
deriving DecidableEq, Repr

/-- The in-place additive loop of `Submission::add`: iterate over the
existing buffer `a` and add `b[i]` into slot `i` whenever `i < b.len()`.
The result keeps `a`'s length; elements of `b` beyond `a`'s length are
dropped (`for (i, v) in stream.mixed.iter_mut() { if i < samples.len() ... }`). -/
def addInto : List ℚ → List ℚ → List ℚ
  | [], _ => []
  | v :: vs, [] => v :: addInto vs []
  | v :: vs, s :: ss => (v + s) :: addInto vs ss

/-- Source: `Submission::new()`. -/
def Submission.new : Submission := ⟨[]⟩

/-- Source: `Submission::add(sample_rate, samples)`: if the rate is present, bump
`num_streams` and add the samples into the existing buffer (keeping its
length); otherwise insert the samples as a fresh stream with
`num_streams = 1`. -/
def Submission.addEntries : List (ℕ × MixedStream) → ℕ → List ℚ → List (ℕ × MixedStream)
  | [], rate, samples => [(rate, ⟨samples, 1⟩)]
  | (r, st) :: rest, rate, samples =>
    if r = rate then
      (r, ⟨addInto st.mixed samples, st.num_streams + 1⟩) :: rest
    else
      (r, st) :: Submission.addEntries rest rate samples

/-- Source: `Submission::add`. -/
def Submission.add (s : Submission) (rate : ℕ) (samples : List ℚ) : Submission :=
  ⟨Submission.addEntries s.entries rate samples⟩

/-- Source: `HashMap::get` on the submission's map. -/
def Submission.lookup (s : Submission) (rate : ℕ) : Option MixedStream :=
  (s.entries.find? (fun e => e.1 = rate)).map Prod.snd

/-! ## Centering: `NoCentering` (`src/scope/centering/none.rs`) -/

/-- Source: `NoCentering::calculate_offset(_, _, _)` — the body is literally `0`. -/
def NoCentering.calculate_offset (_data : List ℚ) (_sample_rate : ℕ)
    (_window_len : ℕ) : ℕ :=
  0

/-! ## Centering: `ZeroCrossing` (`src/scope/centering/zero_crossing.rs`) -/

/-- The rising-crossing test of the loop body:
`data[i] <= 0.0 && data[i + 1] >= 0.0`.  (Out-of-range indexing cannot
occur in the loop because `i + 1 ≤ end ≤ data.len() - 1`; `getD` with
default `0` agrees with the code on every index the loop touches.) -/
def crossingAt (data : List ℚ) (i : ℕ) : Bool :=
  decide (data.getD i 0 ≤ 0) && decide (0 ≤ data.getD (i + 1) 0)

/-- The scan `for i in start..end { if crossing { return i } }`, returning
the first crossing index, if any: the first element of the index range
`[s, e)` satisfying the crossing test. -/
def findCrossing (data : List ℚ) (s e : ℕ) : Option ℕ :=
  (List.range' s (e - s)).find? (fun i => crossingAt data i)

/-- Source: `ZeroCrossing::calculate_offset(data, sample_rate, window_len)` with
configuration field `trigger_width`:
```
let trigger_samples = (sample_rate as f32 * self.trigger_width) as usize;
let start = window_len / 2;
let end = (start + trigger_samples).min(data.len()) - 1;
for i in start..end { if data[i] <= 0.0 && data[i+1] >= 0.0 { return i - window_len / 2; } }
0
```
The subtraction in `end` is `usize`; it panics only when
`min(start + trigger_samples, data.len()) = 0`, a degenerate case the
`ℕ`-truncated model maps to an empty scan instead. -/
def ZeroCrossing.calculate_offset (trigger_width : ℚ) (data : List ℚ)
    (sample_rate : ℕ) (window_len : ℕ) : ℕ :=
  let trigger_samples : ℕ := ⌊(sample_rate : ℚ) * trigger_width⌋₊
  let start := window_len / 2
  let e := min (start + trigger_samples) data.length - 1
  match findCrossing data start e with
  | some i => i - window_len / 2
  | none => 0

/-! ## Centering: `FundamentalPhase` (`src/scope/centering/fundamental_phase.rs`)

The YIN pitch detector and the FFT phase extraction are `f32` FFT
computations that have no exact shallow embedding; the final
center-index computation (lines 141–191 of the file: the `tau *= 2`
two-cycle window assembly, the `tau /= 2` restore, and the
`start + tau - ((phase + PI) / (2.0 * PI) * tau as f32) as usize`
conversion) is embedded parametrically in the two intermediate values it
consumes: `tau`, the period chosen by the YIN threshold pick, and
`phase`, the `atan2` result extracted from the FFT output bin 2. -/

/-- The value of the `f32` constant `std::f32::consts::PI`
(`0x40490FDB = 13176795 · 2⁻²²`), exactly. -/
def pi32 : ℚ := 13176795 / 4194304

/-- Number of input samples assembled for the all-phase FFT: the code
doubles the YIN period (`tau *= 2; // dirty way to get two cycles`) and
windows `yin_input[0..tau]`. -/
def apFFTLen (tau : ℕ) : ℕ := tau * 2

/-- The center-index computation of `FundamentalPhase::center`, following
the code step by step: double `tau` for the two-cycle FFT window, halve
it back (`tau /= 2`), then
`*center_range.start() + tau - ((phase + PI) / (2.0 * PI) * tau as f32) as usize`.
The `as usize` cast truncates toward zero and clamps negative values to
zero (`Int.toNat ∘ Int.floor`). -/
def fpCenterCore (start tau : ℕ) (phase : ℚ) : ℕ :=
  let tau2 := tau * 2
  let tauF := tau2 / 2
  start + tauF - (Int.floor ((phase + pi32) / (2 * pi32) * (tauF : ℚ))).toNat

/-- The claim's version of the same computation
(`search_range.start + tau - round((phase + π) / (2π) * tau)`), with
`round` in place of the truncating cast. -/
def fpCenterSpec (start tau : ℕ) (phase : ℚ) : ℕ :=
  start + tau - (round ((phase + pi32) / (2 * pi32) * (tau : ℚ))).toNat

/-! ## Scope processing (`src/scope.rs`, `Scope::process` / `Scope::output`) -/

/-- Source: `(sample_rate as f32 * self.window_size) as usize` — the number of
output samples of a scope window. -/
def outputSize (sample_rate : ℕ) (window_size : ℚ) : ℕ :=
  ⌊(sample_rate : ℚ) * window_size⌋₊

/-- Source: `(sample_rate as f32 * self.trigger_width) as usize`. -/
def triggerSamples (sample_rate : ℕ) (trigger_width : ℚ) : ℕ :=
  ⌊(sample_rate : ℚ) * trigger_width⌋₊

/-- Source: `let trigger_pad = (self.audio.len() - trigger_samples) / 2;`
(`audioLen` is the length of the buffer `mixer.next()` returned). -/
def triggerPad (audioLen ts : ℕ) : ℕ := (audioLen - ts) / 2

/-- Source: `trigger_range.contains(&center)` for
`trigger_range = trigger_pad..=(audio.len() - trigger_pad)` — the centers
`process()` accepts (its `assert!`). -/
def acceptedCenter (audioLen ts c : ℕ) : Prop :=
  triggerPad audioLen ts ≤ c ∧ c ≤ audioLen - triggerPad audioLen ts

instance (audioLen ts c : ℕ) : Decidable (acceptedCenter audioLen ts c) :=
  inferInstanceAs (Decidable (_ ∧ _))

/-- Source: `self.center_offset = center - output_size / 2;` (a `usize`
subtraction). -/
def centerOffset (center os : ℕ) : ℕ := center - os / 2

/-! ## Resamplers (`src/audio/mixer.rs`, `SincResampler` / `LinearResampler`)

Both resamplers share the same structure: an input queue, and — only
when `from != to` — an interpolating converter that drains the queue.
When `from == to` the converter is absent and `next()` pops the queue
directly, panicking (`.unwrap()`, marked `// TODO dont panic`) when the
queue is empty.  The interpolating converter performs `f32`
sinc/linear interpolation, which has no exact shallow embedding; its
output stream is therefore a parameter `interp` of the step functions:
`interp pushed pos` is the converter's `pos`-th output after the sample
list `pushed` has been enqueued. -/

/-- Resampler state: `pass q` is the `from == to` case (converter absent,
`q` the pending queue); `conv pushed pos` is the `from != to` case (the
full pushed history and the number of outputs already produced). -/
inductive RState where
  | pass (q : List ℚ)
  | conv (pushed : List ℚ) (pos : ℕ)
deriving DecidableEq, Repr

/-- Source: `Resampler::new(from, to)`: the converter is built only `if from != to`. -/
def mkResampler (src tgt : ℕ) : RState :=
  if src = tgt then .pass [] else .conv [] 0

/-- Source: `push_sample`: enqueue one input sample. -/
def RState.push : RState → ℚ → RState
  | .pass q, v => .pass (q ++ [v])
  | .conv p n, v => .conv (p ++ [v]) n

/-- Source: `for s in &samples.mixed { r.push_sample(*s) }`. -/
def RState.pushAll (st : RState) (vs : List ℚ) : RState :=
  vs.foldl RState.push st

/-- Source: `Signal::next` of a resampler: the passthrough pops its queue
(`none` models the `unwrap` panic on an empty queue); the converter
produces its next interpolated output. -/
def rnext (interp : List ℚ → ℕ → ℚ) : RState → Option (ℚ × RState)
  | .pass [] => none
  | .pass (x :: q) => some (x, .pass q)
  | .conv p n => some (interp p n, .conv p (n + 1))

/-! ## Mixer (`src/audio/mixer.rs`, `Mixer<T: Resampler>`) -/

/-- Association list from sample rate to resampler state, modelling
`resamplers: HashMap<u32, T>`. -/
abbrev RMap := List (ℕ × RState)

/-- Source: `HashMap::contains_key`. -/
def RMap.containsKey (rs : RMap) (k : ℕ) : Bool :=
  rs.any (fun e => e.1 = k)

/-- Push a sample list into the resampler stored at rate `k`; a missing
rate is skipped (`None => log::warn!("Missing resampler!")`). -/
def RMap.pushAllAt : RMap → ℕ → List ℚ → RMap
  | [], _, _ => []
  | (r, st) :: rest, k, vs =>
    if r = k then (r, st.pushAll vs) :: rest
    else (r, st) :: RMap.pushAllAt rest k vs

/-- One step of the rate-selection fold in `Mixer::next`: the
accumulator `(rate, num_streams)` is replaced by an entry with strictly
more streams, or equally many streams and a strictly greater rate. -/
def selectStep (acc e : ℕ × ℕ) : ℕ × ℕ :=
  if e.2 > acc.2 ∨ (e.2 = acc.2 ∧ e.1 > acc.1) then e else acc

/-- The rate-selection loop of `Mixer::next` (`determine optimal sample
rate if not forced`), folded over the submission's `(rate, num_streams)`
pairs starting from `(self.sample_rate, 0)`. -/
def selectRate (cur : ℕ) (entries : List (ℕ × ℕ)) : ℕ :=
  (entries.foldl selectStep (cur, 0)).1

/-- Source: `Mixer` state.  The `crossbeam` submission channel is modelled by the
FIFO list `pending` of not-yet-consumed submissions. -/
structure MixerState where
  sample_rate : ℕ
  target_sample_rate : Option ℕ
  pending : List Submission
  resamplers : RMap
deriving DecidableEq, Repr

/-- Source: `Mixer::new(target_sample_rate)` (paired in the code with the sender
of the fresh submission channel): `sample_rate` starts at the forced
value or `44100`, with no resamplers. -/
def Mixer.new (target : Option ℕ) : MixerState :=
  { sample_rate := target.getD 44100
    target_sample_rate := target
    pending := []
    resamplers := [] }

/-- Sending one submission on the mixer's channel. -/
def Mixer.submit (m : MixerState) (s : Submission) : MixerState :=
  { m with pending := m.pending ++ [s] }

/-- The submission-consuming prefix of `Mixer::next` (`try_recv` and the
three blocks that follow it): if a submission is pending, (1) when the
target rate is unforced, recompute `sample_rate` by `selectRate` and
clear **all** resamplers; (2) create a fresh resampler for every
submission rate that has none; (3) push every rate's samples into its
resampler. -/
def consumeSubmission (m : MixerState) : MixerState :=
  match m.pending with
  | [] => m
  | sub :: rest =>
    let m1 :=
      if m.target_sample_rate.isNone then
        { m with
            sample_rate :=
              selectRate m.sample_rate
                (sub.entries.map (fun e => (e.1, e.2.num_streams)))
            resamplers := [] }
      else m
    let rs1 := sub.entries.foldl
      (fun rs e =>
        if rs.containsKey e.1 then rs
        else rs ++ [(e.1, mkResampler e.1 m1.sample_rate)])
      m1.resamplers
    let rs2 := sub.entries.foldl
      (fun rs e => RMap.pushAllAt rs e.1 e.2.mixed) rs1
    { m1 with resamplers := rs2, pending := rest }

/-- The mixdown suffix of `Mixer::next`: pull one sample from every
resampler and sum them (`.map(|r| r.next()[0]).sum::<f32>()`); `none`
models the panic of a starved passthrough resampler. -/
def pullAll (interp : List ℚ → ℕ → ℚ) : RMap → Option (ℚ × RMap)
  | [] => some (0, [])
  | (r, st) :: rest => do
    let (x, st') ← rnext interp st
    let (s, rest') ← pullAll interp rest
    pure (x + s, (r, st') :: rest')

/-- Source: `Mixer::next` (`Signal::next`): consume a pending submission, then
mix one output sample. -/
def Mixer.next (interp : List ℚ → ℕ → ℚ) (m : MixerState) :
    Option (ℚ × MixerState) := do
  let m1 := consumeSubmission m
  let (x, rs) ← pullAll interp m1.resamplers
  pure (x, { m1 with resamplers := rs })

/-- Pull `n` consecutive output samples from the mixer. -/
def Mixer.nextN (interp : List ℚ → ℕ → ℚ) (m : MixerState) :
    ℕ → Option (List ℚ × MixerState)
  | 0 => some ([], m)
  | n + 1 => do
    let (x, m') ← Mixer.next interp m
    let (xs, m'') ← Mixer.nextN interp m' n
    pure (x :: xs, m'')

/-- Shorthand for a mixer state with an empty submission channel. -/
def mkMix (sr : ℕ) (tgt : Option ℕ) (rs : RMap) : MixerState :=
  { sample_rate := sr, target_sample_rate := tgt, pending := [], resamplers := rs }

/-! ## Player (`src/audio/playback.rs`) -/

/-- The capacity of a `crossbeam_channel`: `bounded n` or `unbounded`. -/
inductive ChannelCap where
  | bounded (n : ℕ)
  | unbounded
deriving DecidableEq, Repr

/-- The `Player` fields relevant to submission queueing: the device
format and the capacity of the channel behind `submission_queue`. -/
structure PlayerState where
  channels : ℕ
  sample_rate : ℕ
  submission_cap : ChannelCap
deriving DecidableEq, Repr

/-- Source: `Player::new`: the submission channel is created by
`crossbeam_channel::bounded(0)` (line 124). -/
def Player.new (channels sample_rate : ℕ) : PlayerState :=
  { channels := channels, sample_rate := sample_rate
    submission_cap := .bounded 0 }

/-- Source: `Player::rebuild_mixer`: a fresh channel is created by
`crossbeam_channel::unbounded()` (line 217) and replaces
`self.submission_queue`. -/
def Player.rebuild_mixer (p : PlayerState) : PlayerState :=
  { p with submission_cap := .unbounded }

/-- Source: `Player::submit` sends on the existing channel; the channel itself
(and hence its capacity) is untouched. -/
def Player.submit (p : PlayerState) (_sub : Submission) : PlayerState :=
  p

/-- Modelled from the spec: the new-generation `SubmissionBuilder` /
`MixerStream` (referenced by `src/scope.rs` and `src/audio/playback.rs`
but absent from the sources) sizes each per-rate buffer so that
`length_of_channel(rate) = round(duration * rate)` (spec §8.3), and
`Scope::process` pulls exactly one submission's worth of mixed audio, so
the buffer handed to centering holds `round(duration * rate)` frames at
the scope mixer's target rate. -/
def subLength (rate : ℕ) (duration : ℚ) : ℕ :=
  (round ((rate : ℚ) * duration)).toNat

/-- Submission declaring rate 22050 twice (two streams) and rate 48000
once, used as a concrete test vector. -/
def subMulti : Submission :=
  ((Submission.new.add 22050 [1]).add 22050 [1]).add 48000 [1]

/-- A resampler map whose every entry is a converter (`from != to`)
resampler. -/
def convOnly (L : RMap) : Prop :=
  ∀ p ∈ L, ∃ ps n, p.2 = RState.conv ps n

/-! ## Helper lemmas -/

/-- Helper: `find?` over an index range returns `none` exactly when the
predicate is false on the whole range. -/
theorem range'_find?_eq_none {p : ℕ → Bool} {s n : ℕ}
    (h : ∀ j, s ≤ j → j < s + n → p j = false) :
    (List.range' s n).find? p = none := by
  rw [List.find?_eq_none]
  intro x hx
  rw [List.mem_range'_1] at hx
  simp [h x hx.1 hx.2]

/-- Helper: `find?` over an index range returns the least index
satisfying the predicate. -/
theorem range'_find?_eq_some {p : ℕ → Bool} {i : ℕ} :
    ∀ {n s : ℕ}, s ≤ i → i < s + n → p i = true →
      (∀ j, s ≤ j → j < i → p j = false) →
      (List.range' s n).find? p = some i := by
  intro n
  induction n with
  | zero => intro s h1 h2; omega
  | succ k ih =>
    intro s h1 h2 hp hmin
    rw [List.range'_succ]
    rcases eq_or_lt_of_le h1 with rfl | hlt
    · simp [List.find?, hp]
    · have hps : p s = false := hmin s le_rfl hlt
      simp only [List.find?, hps]
      exact ih hlt (by omega) hp (fun j hj1 hj2 => hmin j (by omega) hj2)

/-- Helper: length of the additive merge is the first list's length. -/
theorem addInto_length : ∀ (a b : List ℚ), (addInto a b).length = a.length := by
  intro a
  induction a with
  | nil => intro b; cases b <;> rfl
  | cons v vs ih => intro b; cases b <;> simp [addInto, ih]

/-- Helper: elementwise value of the additive merge: within the first
list's length, the second list is zero-padded. -/
theorem addInto_getD : ∀ (a b : List ℚ) (i : ℕ), i < a.length →
    (addInto a b).getD i 0 = a.getD i 0 + b.getD i 0 := by
  intro a
  induction a with
  | nil => intro b i h; simp at h
  | cons v vs ih =>
    intro b i h
    cases b with
    | nil =>
      cases i with
      | zero => simp [addInto]
      | succ j => simpa [addInto] using ih [] j (by simpa using h)
    | cons s ss =>
      cases i with
      | zero => simp [addInto]
      | succ j => simpa [addInto] using ih ss j (by simpa using h)

/-! ## C9 — `NoCentering` -/

/-- C9 counterexample: `NoCentering::calculate_offset` on the buffer
`[0, 0]` returns `0`, which is not the midpoint `data.len() / 2 = 1` of
the buffer — the function returns the constant offset `0`, not the
midpoint index. -/
theorem noCentering_counterexample :
    NoCentering.calculate_offset [0, 0] 1 0 = 0
      ∧ [(0 : ℚ), 0].length / 2 = 1 ∧ (0 : ℕ) ≠ 1 := by
  exact ⟨rfl, rfl, by decide⟩

/-- C9 (amended): `NoCentering::calculate_offset` returns the constant
`0` regardless of buffer contents, sample rate and window length — in
the offset convention of the old centering trait, the displayed window
starts at the buffer start (no triggering), which corresponds to center
index `window_len / 2` rather than to the literal value `data.len() / 2`. -/
theorem noCentering_offset_zero (data : List ℚ) (sample_rate window_len : ℕ) :
    NoCentering.calculate_offset data sample_rate window_len = 0 :=
  rfl

/-! ## C3 — `ZeroCrossing` -/

/-- C3 counterexample: on the buffer `[1, -1, 1, 1, 1, 1]` with
`window_len = 6`, `sample_rate = 1` and `trigger_width = 3`, the nearest
(indeed the only) rising zero crossing is at index `1`, to the left of
the midpoint `3` — yet `calculate_offset` returns `0`, which is neither
that crossing's index nor the midpoint: the scan never looks left of
`window_len / 2`, and the fallback is the constant `0`. -/
theorem zeroCrossing_counterexample :
    ZeroCrossing.calculate_offset 3 [1, -1, 1, 1, 1, 1] 1 6 = 0
      ∧ crossingAt [1, -1, 1, 1, 1, 1] 1 = true
      ∧ crossingAt [1, -1, 1, 1, 1, 1] 0 = false
      ∧ (0 : ℕ) ≠ 1
      ∧ (0 : ℕ) ≠ [(1 : ℚ), -1, 1, 1, 1, 1].length / 2 := by
  refine ⟨?_, ?_, ?_, by decide, by decide⟩
  · norm_num [ZeroCrossing.calculate_offset, findCrossing, crossingAt, List.getD,
      List.range', List.find?]
  · norm_num [crossingAt, List.getD]
  · norm_num [crossingAt, List.getD]

/-- C3 (amended): `ZeroCrossing::calculate_offset` scans only *forward*
from `window_len / 2`, for at most `trigger_samples` positions clamped
to the buffer; it returns the first rising-crossing index found *minus
`window_len / 2`* (an offset, not an index), and the constant `0` (not
the midpoint) when no crossing lies in the scanned range. -/
theorem zeroCrossing_amended (trigger_width : ℚ) (data : List ℚ)
    (sample_rate window_len : ℕ) :
    ((∀ j, window_len / 2 ≤ j →
        j < min (window_len / 2 + ⌊(sample_rate : ℚ) * trigger_width⌋₊) data.length - 1 →
        crossingAt data j = false) →
      ZeroCrossing.calculate_offset trigger_width data sample_rate window_len = 0)
    ∧ (∀ i, window_len / 2 ≤ i →
        i < min (window_len / 2 + ⌊(sample_rate : ℚ) * trigger_width⌋₊) data.length - 1 →
        crossingAt data i = true →
        (∀ j, window_len / 2 ≤ j → j < i → crossingAt data j = false) →
        ZeroCrossing.calculate_offset trigger_width data sample_rate window_len
          = i - window_len / 2) := by
  constructor
  · intro h
    have : findCrossing data (window_len / 2)
        (min (window_len / 2 + ⌊(sample_rate : ℚ) * trigger_width⌋₊) data.length - 1)
        = none := by
      apply range'_find?_eq_none
      intro j hj1 hj2
      exact h j hj1 (by omega)
    simp only [ZeroCrossing.calculate_offset, this]
  · intro i h1 h2 hc hmin
    have : findCrossing data (window_len / 2)
        (min (window_len / 2 + ⌊(sample_rate : ℚ) * trigger_width⌋₊) data.length - 1)
        = some i := by
      apply range'_find?_eq_some h1 (by omega) hc hmin
    simp only [ZeroCrossing.calculate_offset, this]

/-- C3 witness: a buffer with its first rising crossing at index 4, to
the right of the midpoint 3 — `calculate_offset` returns the offset
`4 - 6 / 2 = 1`. -/
theorem zeroCrossing_amended_witness :
    ZeroCrossing.calculate_offset 4 [1, 1, 1, 1, -1, 1, 1, 1] 1 6 = 1 := by
  have h := (zeroCrossing_amended 4 [1, 1, 1, 1, -1, 1, 1, 1] 1 6).2 4
    (by norm_num) (by norm_num) (by norm_num [crossingAt, List.getD])
    (by
      intro j hj1 hj2
      interval_cases j
      norm_num [crossingAt, List.getD])
  simpa using h

/-! ## C2 — `Submission::add` additivity -/

/-- C2 counterexample: adding `A = [1]` then `B = [2, 3]` at the same
rate leaves the rate's buffer at `[3]` — `B`'s second sample is dropped,
whereas the claim's zero-padded elementwise sum would be `[3, 3]`. -/
theorem submission_add_counterexample :
    ((Submission.new.add 1 [1]).add 1 [2, 3]).lookup 1
        = some ⟨[3], 2⟩
      ∧ ([(3 : ℚ)] : List ℚ) ≠ [3, 3] := by
  constructor
  · norm_num [Submission.new, Submission.add, Submission.addEntries,
      Submission.lookup, addInto, List.find?]
  · simp

/-- C2 (amended): two `Submission::add` calls at the same rate with
sample sequences `A` then `B` leave that rate's buffer at the
elementwise sum *truncated to `A`'s length*: `B` is zero-padded up to
`A`'s length but its samples beyond `A`'s length are dropped (the code
iterates over the existing buffer only), and `num_streams` becomes 2. -/
theorem submission_add_amended (rate : ℕ) (A B : List ℚ) :
    ((Submission.new.add rate A).add rate B).lookup rate
        = some ⟨addInto A B, 2⟩
      ∧ (addInto A B).length = A.length
      ∧ (∀ i, i < A.length →
          (addInto A B).getD i 0 = A.getD i 0 + B.getD i 0) := by
  refine ⟨?_, addInto_length A B, fun i hi => addInto_getD A B i hi⟩
  simp [Submission.new, Submission.add, Submission.addEntries,
    Submission.lookup, List.find?]

/-- C2 witness: the amended statement evaluated at `A = [1]`,
`B = [2, 3]`. -/
theorem submission_add_amended_witness :
    ((Submission.new.add 1 [1]).add 1 [2, 3]).lookup 1 = some ⟨[3], 2⟩ := by
  have h := (submission_add_amended 1 [1] [2, 3]).1
  norm_num [addInto] at h
  exact h

/-! ## C6 — `FundamentalPhase::center` final index -/

/-- C6 counterexample: at `search_range.start = 0`, YIN period
`tau = 3` and fundamental phase `0`, the ratio
`(phase + π) / (2π) · tau = 3/2`; the code's `as usize` cast truncates
it to `1`, giving center `2`, while the claim's `round` gives `2` and
center `1`. -/
theorem fundamentalPhase_counterexample :
    fpCenterCore 0 3 0 = 2 ∧ fpCenterSpec 0 3 0 = 1 ∧ (2 : ℕ) ≠ 1 := by
  refine ⟨?_, ?_, by decide⟩
  · norm_num [fpCenterCore, pi32, Int.floor_eq_iff]
  · norm_num [fpCenterSpec, pi32, round_eq, Int.floor_eq_iff]
    decide

/-- C6 (amended): the final index of `FundamentalPhase::center` (before
the optional snap-to-crossing post-step) is
`search_range.start + tau - ⌊(phase + π) / (2π) · tau⌋` — the `as usize`
cast truncates (floor, clamped at zero) rather than rounds — and the
all-phase FFT from which `phase` is extracted is taken over *two*
estimated cycles (`2 · tau` samples, triangular-windowed and folded),
not one. -/
theorem fundamentalPhase_center_amended (start tau : ℕ) (phase : ℚ) :
    fpCenterCore start tau phase
        = start + tau - (Int.floor ((phase + pi32) / (2 * pi32) * (tau : ℚ))).toNat
      ∧ apFFTLen tau = 2 * tau := by
  have h2 : tau * 2 / 2 = tau := Nat.mul_div_cancel tau (by norm_num)
  constructor
  · simp only [fpCenterCore, h2]
  · simp [apFFTLen, Nat.mul_comm]

/-! ## C4 — `Scope::process` / `Scope::output` slice bounds -/

/-- C4 counterexample: a scope running at 1024 Hz with a window of
`3/1024` s and a trigger width of `1/512` s has `output_size = 3` (odd),
`trigger_samples = 2` and a mixed buffer of `round(5/1024 · 1024) = 5`
samples, so `trigger_pad = 1` and `process()` accepts any center in
`1..=4`; at the accepted center `4` the output slice is
`audio[3 .. 3 + 3]`, whose end `6` runs past the buffer length `5`. -/
theorem scope_slice_counterexample :
    outputSize 1024 (3 / 1024) = 3
      ∧ triggerSamples 1024 (1 / 512) = 2
      ∧ subLength 1024 (3 / 1024 + 1 / 512) = 5
      ∧ acceptedCenter 5 2 4
      ∧ centerOffset 4 3 + 3 > 5 := by
  refine ⟨?_, ?_, ?_, by decide, by decide⟩
  · norm_num [outputSize]
  · norm_num [triggerSamples]
  · norm_num [subLength, round_eq]
    decide

/-- C4 (amended): after `process()`, `center_offset` is indeed the
centering result minus `output_size / 2` and `output()` returns exactly
`output_size` samples, but the slice is guaranteed inside the buffer for
*every* accepted center only under the additional condition
`⌈output_size / 2⌉ ≤ trigger_pad` — satisfied whenever `output_size` is
even and the buffer holds at least `output_size + trigger_samples`
samples, but violated at the topmost accepted center when `output_size`
is odd and the buffer is exactly that long. -/
theorem scope_slice_amended (audioLen ts os c : ℕ)
    (hpad : (os + 1) / 2 ≤ triggerPad audioLen ts)
    (hc : acceptedCenter audioLen ts c) :
    centerOffset c os = c - os / 2
      ∧ os / 2 ≤ c
      ∧ centerOffset c os + os ≤ audioLen := by
  obtain ⟨h1, h2⟩ := hc
  unfold triggerPad at hpad h1 h2
  refine ⟨rfl, by omega, ?_⟩
  simp only [centerOffset]
  omega

/-- C4 witness: the amended bound at `audioLen = 4`, `trigger_samples = 2`,
even `output_size = 2` and accepted center `2`: the slice
`audio[1 .. 1 + 2]` stays inside the buffer. -/
theorem scope_slice_amended_witness :
    centerOffset 2 2 = 2 - 2 / 2 ∧ 2 / 2 ≤ 2 ∧ centerOffset 2 2 + 2 ≤ 4 :=
  scope_slice_amended 4 2 2 2 (by decide) (by decide)

/-! ## C8 — `Player` submission channel capacity -/

/-- C8 counterexample: the channel made by `Player::new` has capacity
`bounded(0)`, but `rebuild_mixer` replaces it with one made by
`crossbeam_channel::unbounded()` — after a rebuild the submission
channel is unbounded, contradicting the claim that it remains bounded
after every `Player` operation. -/
theorem player_channel_counterexample :
    (Player.new 2 44100).submission_cap = ChannelCap.bounded 0
      ∧ (Player.rebuild_mixer (Player.new 2 44100)).submission_cap
          = ChannelCap.unbounded
      ∧ ChannelCap.unbounded ≠ ChannelCap.bounded 0 := by
  exact ⟨rfl, rfl, by decide⟩

/-- C8 (amended): the submission channel is zero-capacity at
construction and `submit` never changes it (so back-pressure holds until
a rebuild), but `rebuild_mixer` swaps in an *unbounded* channel, after
which submissions can buffer without back-pressure. -/
theorem player_channel_amended (channels sample_rate : ℕ) (p : PlayerState)
    (sub : Submission) :
    (Player.new channels sample_rate).submission_cap = ChannelCap.bounded 0
      ∧ (Player.submit p sub).submission_cap = p.submission_cap
      ∧ (Player.rebuild_mixer p).submission_cap = ChannelCap.unbounded :=
  ⟨rfl, rfl, rfl⟩

/-! ## C7 — resampler starvation -/

/-- C7: at the failing input — a passthrough (`from == to`) resampler
with no queued input, pulled once — the code's `next()` is
`self.queue.lock().unwrap().pop_front().unwrap()` on an empty queue,
i.e. a panic (modelled as `none`), not an "insufficient data" error
value; the same happens through a whole `Mixer::next` call whose only
submission pushed zero samples at the target rate.  The adjacent
`// TODO dont panic` comment marks the panic as contrary to intent. -/
theorem resampler_starved_result :
    mkResampler 44100 44100 = RState.pass []
      ∧ rnext (fun _ _ => 0) (RState.pass []) = none
      ∧ Mixer.next (fun _ _ => 0)
          (Mixer.submit (Mixer.new (some 44100)) (Submission.new.add 44100 []))
          = none := by
  refine ⟨by simp [mkResampler], rfl, ?_⟩
  rfl

/-! ## Mixer helper lemmas -/

/-- Helper: once the running pair has `num_streams = 1`, the selection
fold over all-singleton entries is a plain running maximum of rates. -/
theorem selectStep_ones : ∀ (l : List (ℕ × ℕ)) (r : ℕ), (∀ e ∈ l, e.2 = 1) →
    l.foldl selectStep (r, 1) = (l.foldl (fun a e => max a e.1) r, 1) := by
  intro l
  induction l with
  | nil => intro r _; rfl
  | cons e rest ih =>
    intro r h
    obtain ⟨e1, e2⟩ := e
    have he : e2 = 1 := h (e1, e2) (List.mem_cons_self _ rest)
    subst he
    have hstep : selectStep (r, 1) (e1, 1) = (max r e1, 1) := by
      simp only [selectStep]
      by_cases hgt : e1 > r
      · simp [hgt, Nat.max_eq_right (Nat.le_of_lt hgt)]
      · have hmax : max r e1 = r := Nat.max_eq_left (Nat.le_of_not_lt hgt)
        simp [hgt, hmax]
    rw [List.foldl_cons, List.foldl_cons, hstep,
      ih (max r e1) (fun e' he' => h e' (List.mem_cons_of_mem _ he'))]

/-- Helper: when every entry of a nonempty submission has exactly one
stream, the rate selection reduces to the maximum declared rate. -/
theorem selectRate_ones (cur : ℕ) (l : List (ℕ × ℕ)) (hne : l ≠ [])
    (h1 : ∀ e ∈ l, e.2 = 1) :
    selectRate cur l = (l.map Prod.fst).foldl max 0 := by
  cases l with
  | nil => exact absurd rfl hne
  | cons e rest =>
    obtain ⟨e1, e2⟩ := e
    have he : e2 = 1 := h1 (e1, e2) (List.mem_cons_self _ rest)
    subst he
    have hstep : selectStep (cur, 0) (e1, 1) = (e1, 1) := by
      simp [selectStep]
    rw [selectRate, List.foldl_cons, hstep,
      selectStep_ones rest e1 (fun e' he' => h1 e' (List.mem_cons_of_mem _ he')),
      List.map_cons, List.foldl_cons, Nat.zero_max, List.foldl_map]

/-- Helper: the sample rate after consuming a pending submission. -/
theorem consume_sample_rate (m : MixerState) (sub : Submission)
    (rest : List Submission) (hp : m.pending = sub :: rest) :
    (consumeSubmission m).sample_rate
      = if m.target_sample_rate.isNone then
          selectRate m.sample_rate
            (sub.entries.map fun e => (e.1, e.2.num_streams))
        else m.sample_rate := by
  unfold consumeSubmission
  rw [hp]
  by_cases h : m.target_sample_rate.isNone <;> simp [h]

/-! ## C1 — mixer target-rate selection -/

/-- C1 counterexample: an unforced mixer consuming a submission whose
rate 22050 carries two streams and whose rate 48000 carries one picks
22050 — the rate with the most streams — not the maximum declared rate
48000. -/
theorem mixer_rate_counterexample :
    (consumeSubmission (Mixer.submit (Mixer.new none) subMulti)).sample_rate
        = 22050
      ∧ subMulti.entries.map Prod.fst = [22050, 48000]
      ∧ (subMulti.entries.map Prod.fst).foldl max 0 = 48000
      ∧ (22050 : ℕ) ≠ 48000 := by
  refine ⟨?_, rfl, rfl, by decide⟩
  norm_num [consumeSubmission, Mixer.submit, Mixer.new, subMulti,
    Submission.new, Submission.add, Submission.addEntries, addInto,
    selectRate, selectStep]

/-- C1 (amended): an unforced mixer recomputes its rate on every
consumed submission as the rate of the entry with the most contributing
streams, ties broken toward the greater rate, starting from the current
rate (initially 44100, which an empty submission leaves unchanged); this
equals the maximum declared rate exactly when every declared rate
carries one stream.  A forced mixer always keeps the forced rate. -/
theorem mixer_target_rate_amended (m : MixerState) (sub : Submission)
    (rest : List Submission) (hp : m.pending = sub :: rest) :
    (Mixer.new none).sample_rate = 44100
      ∧ (∀ T, (Mixer.new (some T)).sample_rate = T)
      ∧ (∀ T, m.target_sample_rate = some T →
          (consumeSubmission m).sample_rate = m.sample_rate)
      ∧ (m.target_sample_rate = none →
          (consumeSubmission m).sample_rate
            = selectRate m.sample_rate
                (sub.entries.map fun e => (e.1, e.2.num_streams)))
      ∧ (m.target_sample_rate = none → sub.entries ≠ [] →
          (∀ e ∈ sub.entries, e.2.num_streams = 1) →
          (consumeSubmission m).sample_rate
            = (sub.entries.map Prod.fst).foldl max 0)
      ∧ (m.target_sample_rate = none → sub.entries = [] →
          (consumeSubmission m).sample_rate = m.sample_rate) := by
  have hsr := consume_sample_rate m sub rest hp
  refine ⟨rfl, fun T => rfl, ?_, ?_, ?_, ?_⟩
  · intro T hT
    rw [hsr, hT]
    rfl
  · intro hT
    rw [hsr, hT]
    rfl
  · intro hT hne hones
    rw [hsr, hT]
    simp only [Option.isNone_none, if_true]
    rw [selectRate_ones _ _ (by simpa using hne)
      (by
        intro e' he'
        obtain ⟨e, he, rfl⟩ := List.mem_map.1 he'
        exact hones e he)]
    simp [List.map_map, Function.comp_def]
  · intro hT hemp
    rw [hsr, hT, hemp]
    rfl

/-- C1 witness: a fresh unforced mixer consuming a submission whose
rates 22050 and 48000 each carry one stream picks the maximum, 48000. -/
theorem mixer_rate_amended_witness :
    (consumeSubmission (Mixer.submit (Mixer.new none)
        ((Submission.new.add 22050 [1]).add 48000 [1]))).sample_rate
      = 48000 := by
  have h := (mixer_target_rate_amended
    (Mixer.submit (Mixer.new none) ((Submission.new.add 22050 [1]).add 48000 [1]))
    ((Submission.new.add 22050 [1]).add 48000 [1]) [] rfl).2.2.2.2.1
    rfl (by decide) (by decide)
  rw [h]
  rfl

/-- Helper: pushing samples into the resampler at one key does not
change the key list. -/
theorem pushAllAt_keys (k : ℕ) (vs : List ℚ) : ∀ (rs : RMap),
    (RMap.pushAllAt rs k vs).map Prod.fst = rs.map Prod.fst := by
  intro rs
  induction rs with
  | nil => rfl
  | cons e rest ih =>
    obtain ⟨r, st⟩ := e
    by_cases h : r = k <;> simp [RMap.pushAllAt, h, ih]

/-- Helper: the sample-pushing fold of `Mixer::next` does not change the
key list. -/
theorem pushFold_keys : ∀ (entries : List (ℕ × MixedStream)) (rs : RMap),
    (entries.foldl (fun rs e => RMap.pushAllAt rs e.1 e.2.mixed) rs).map Prod.fst
      = rs.map Prod.fst := by
  intro entries
  induction entries with
  | nil => intro rs; rfl
  | cons e rest ih =>
    intro rs
    rw [List.foldl_cons, ih, pushAllAt_keys]

/-- Helper: the resampler-creation fold of `Mixer::next`, started from a
map containing none of the entry keys, appends one fresh resampler per
entry, in entry order. -/
theorem createFold_eq (sr : ℕ) : ∀ (entries : List (ℕ × MixedStream)) (rs0 : RMap),
    (entries.map Prod.fst).Nodup →
    (∀ e ∈ entries, rs0.containsKey e.1 = false) →
    entries.foldl (fun rs e => if rs.containsKey e.1 then rs
        else rs ++ [(e.1, mkResampler e.1 sr)]) rs0
      = rs0 ++ entries.map (fun e => (e.1, mkResampler e.1 sr)) := by
  intro entries
  induction entries with
  | nil => intro rs0 _ _; simp
  | cons e rest ih =>
    intro rs0 hnd h0
    rw [List.map_cons, List.nodup_cons] at hnd
    obtain ⟨hnotmem, hnd'⟩ := hnd
    have hhead : rs0.containsKey e.1 = false := h0 e (List.mem_cons_self _ _)
    have hrest : ∀ e' ∈ rest,
        (rs0 ++ [(e.1, mkResampler e.1 sr)]).containsKey e'.1 = false := by
      intro e' he'
      have hne : e.1 ≠ e'.1 := by
        intro heq
        exact hnotmem (heq ▸ List.mem_map_of_mem Prod.fst he')
      have h0' : rs0.containsKey e'.1 = false := h0 e' (List.mem_cons_of_mem _ he')
      unfold RMap.containsKey at h0' ⊢
      rw [List.any_append, h0']
      simp [hne]
    rw [List.foldl_cons, if_neg (by simp [hhead]), ih _ hnd' hrest]
    simp

/-! ## C10 — resampler map reset on every unforced submission -/

/-- C10: when the target rate is unforced, every `Mixer::next` call that
consumes a pending submission first clears the whole resampler map —
the post-state is identical whatever resamplers (and whatever queued
samples) were held before — and immediately afterwards the resampler
keys are exactly the submission's rates, in particular even when the
recomputed rate is unchanged. -/
theorem mixer_resampler_reset (m : MixerState) (sub : Submission)
    (rest : List Submission) (hp : m.pending = sub :: rest)
    (ht : m.target_sample_rate = none)
    (hnd : (sub.entries.map Prod.fst).Nodup) :
    (consumeSubmission m).resamplers.map Prod.fst = sub.entries.map Prod.fst
      ∧ consumeSubmission m = consumeSubmission { m with resamplers := [] } := by
  constructor
  · unfold consumeSubmission
    rw [hp]
    simp only [ht, Option.isNone_none, if_true]
    rw [createFold_eq _ _ [] hnd (by intro e _; rfl)]
    rw [pushFold_keys]
    simp [List.map_map, Function.comp_def]
  · unfold consumeSubmission
    rw [hp]
    simp [ht]

/-- C10 witness: a mixer that has already consumed `subMulti` (and so
holds stale resamplers with queued samples) consumes a second submission
declaring rates 22050 and 48000; afterwards the resampler keys are
exactly `[22050, 48000]`. -/
theorem mixer_resampler_reset_witness :
    (consumeSubmission (Mixer.submit
        (consumeSubmission (Mixer.submit (Mixer.new none) subMulti))
        ((Submission.new.add 22050 [1]).add 48000 [1]))).resamplers.map Prod.fst
      = [22050, 48000] := by
  have h := (mixer_resampler_reset
    (Mixer.submit (consumeSubmission (Mixer.submit (Mixer.new none) subMulti))
      ((Submission.new.add 22050 [1]).add 48000 [1]))
    ((Submission.new.add 22050 [1]).add 48000 [1]) [] rfl rfl (by decide)).1
  rw [h]
  rfl

/-! ## C5 — bit-exact passthrough -/

/-- Helper: pushing samples into a passthrough resampler appends them to
its queue. -/
theorem pushAll_pass : ∀ (vs q : List ℚ),
    (RState.pass q).pushAll vs = RState.pass (q ++ vs) := by
  intro vs
  induction vs with
  | nil => intro q; simp [RState.pushAll]
  | cons v vs ih =>
    intro q
    simp only [RState.pushAll, List.foldl_cons, RState.push] at *
    rw [ih (q ++ [v])]
    simp

/-- Helper: pushing samples into a converter resampler appends them to
its pushed history. -/
theorem pushAll_conv : ∀ (vs p : List ℚ) (n : ℕ),
    (RState.conv p n).pushAll vs = RState.conv (p ++ vs) n := by
  intro vs
  induction vs with
  | nil => intro p n; simp [RState.pushAll]
  | cons v vs ih =>
    intro p n
    simp only [RState.pushAll, List.foldl_cons, RState.push] at *
    rw [ih (p ++ [v])]
    simp

/-- Helper: pushing at a key not present in the prefix updates the first
entry with that key. -/
theorem pushAllAt_split (k : ℕ) (st : RState) (vs : List ℚ) :
    ∀ (pre tail : RMap), (∀ p ∈ pre, p.1 ≠ k) →
    RMap.pushAllAt (pre ++ (k, st) :: tail) k vs
      = pre ++ (k, st.pushAll vs) :: tail := by
  intro pre
  induction pre with
  | nil => intro tail _; simp [RMap.pushAllAt]
  | cons e rest ih =>
    intro tail h
    obtain ⟨r, st'⟩ := e
    have hr : r ≠ k := h (r, st') (List.mem_cons_self _ _)
    simp only [List.cons_append, RMap.pushAllAt, if_neg hr, List.append_eq]
    rw [ih tail (fun p hp => h p (List.mem_cons_of_mem _ hp))]

/-- Helper: the sample-pushing fold of `Mixer::next` over a freshly
created resampler map pushes each entry's samples into its own
resampler. -/
theorem pushFold_map (f : ℕ × MixedStream → RState) :
    ∀ (entries : List (ℕ × MixedStream)) (pre : RMap),
    (entries.map Prod.fst).Nodup →
    (∀ e ∈ entries, ∀ p ∈ pre, p.1 ≠ e.1) →
    entries.foldl (fun rs e => RMap.pushAllAt rs e.1 e.2.mixed)
        (pre ++ entries.map (fun e => (e.1, f e)))
      = pre ++ entries.map (fun e => (e.1, (f e).pushAll e.2.mixed)) := by
  intro entries
  induction entries with
  | nil => intro pre _ _; simp
  | cons e rest ih =>
    intro pre hnd hpre
    rw [List.map_cons, List.nodup_cons] at hnd
    obtain ⟨hnotmem, hnd'⟩ := hnd
    rw [List.map_cons, List.foldl_cons,
      pushAllAt_split e.1 (f e) e.2.mixed pre _
        (fun p hp => hpre e (List.mem_cons_self _ _) p hp)]
    have hassoc : pre ++ (e.1, (f e).pushAll e.2.mixed) :: rest.map (fun e => (e.1, f e))
        = (pre ++ [(e.1, (f e).pushAll e.2.mixed)]) ++ rest.map (fun e => (e.1, f e)) := by
      simp
    rw [hassoc, ih (pre ++ [(e.1, (f e).pushAll e.2.mixed)]) hnd'
      (by
        intro e' he' p hp
        rcases List.mem_append.1 hp with hp | hp
        · exact hpre e' (List.mem_cons_of_mem _ he') p hp
        · rcases List.mem_singleton.1 hp with rfl
          intro heq
          exact hnotmem (heq ▸ List.mem_map_of_mem Prod.fst he'))]
    simp

/-- Helper: the full effect of a fresh forced mixer consuming one
submission: the rate stays the forced value and each submission rate
gets a fresh resampler holding exactly that rate's samples. -/
theorem consume_forced_fresh (T : ℕ) (sub : Submission)
    (hnd : (sub.entries.map Prod.fst).Nodup) :
    consumeSubmission (Mixer.submit (Mixer.new (some T)) sub)
      = mkMix T (some T)
          (sub.entries.map (fun e => (e.1, (mkResampler e.1 T).pushAll e.2.mixed))) := by
  show mkMix T (some T)
      (sub.entries.foldl (fun rs e => RMap.pushAllAt rs e.1 e.2.mixed)
        (sub.entries.foldl (fun rs e => if rs.containsKey e.1 then rs
            else rs ++ [(e.1, mkResampler e.1 T)]) [])) = _
  rw [createFold_eq T sub.entries [] hnd (fun e _ => rfl)]
  rw [pushFold_map (fun e => mkResampler e.1 T) sub.entries [] hnd
    (fun e _ p hp => absurd hp (List.not_mem_nil p))]
  rw [List.nil_append]

/-- Helper: a successful `find?` on the first component splits the entry
list at the found key, which is absent from the prefix. -/
theorem find?_split (T : ℕ) (st : MixedStream) :
    ∀ (l : List (ℕ × MixedStream)),
    (l.find? (fun e => e.1 = T)).map Prod.snd = some st →
    ∃ L₁ L₂, l = L₁ ++ (T, st) :: L₂ ∧ ∀ p ∈ L₁, p.1 ≠ T := by
  intro l
  induction l with
  | nil => intro h; simp [List.find?] at h
  | cons e rest ih =>
    intro h
    by_cases he : e.1 = T
    · rw [List.find?_cons_of_pos _ (by simpa using he)] at h
      obtain ⟨r, stm⟩ := e
      have he' : r = T := he
      have h' : stm = st := by
        rw [Option.map_some'] at h
        exact Option.some_inj.mp h
      subst he'
      subst h'
      exact ⟨[], rest, rfl, by intro p hp; simp at hp⟩
    · rw [List.find?_cons_of_neg _ (by simpa using he)] at h
      obtain ⟨L₁, L₂, heq, hne⟩ := ih h
      refine ⟨e :: L₁, L₂, by rw [heq, List.cons_append], ?_⟩
      intro p hp
      rcases List.mem_cons.1 hp with rfl | hp
      · exact he
      · exact hne p hp

/-- Helper: a successful `lookup` splits the submission's entry list at
the looked-up rate, with that rate absent from the prefix. -/
theorem lookup_split (s : Submission) (T : ℕ) (st : MixedStream)
    (h : s.lookup T = some st) :
    ∃ L₁ L₂, s.entries = L₁ ++ (T, st) :: L₂ ∧ ∀ p ∈ L₁, p.1 ≠ T :=
  find?_split T st s.entries h

/-- Helper: pulling once from an all-converter map yields the sum of the
converters' outputs — zero when the interpolator contributes only
zeros — and leaves the map all-converter. -/
theorem pullAll_convOnly (interp : List ℚ → ℕ → ℚ)
    (hz : ∀ l n, interp l n = 0) :
    ∀ (L : RMap), convOnly L →
      ∃ L', pullAll interp L = some (0, L') ∧ convOnly L' := by
  intro L
  induction L with
  | nil => intro _; exact ⟨[], rfl, by intro p hp; simp at hp⟩
  | cons e rest ih =>
    intro h
    obtain ⟨r, st⟩ := e
    obtain ⟨ps, n, hst⟩ := h (r, st) (List.mem_cons_self _ _)
    simp only at hst
    subst hst
    obtain ⟨L', hL', hconv⟩ := ih (fun p hp => h p (List.mem_cons_of_mem _ hp))
    refine ⟨(r, RState.conv ps (n + 1)) :: L', ?_, ?_⟩
    · simp [pullAll, rnext, hL', hz]
    · intro p hp
      rcases List.mem_cons.1 hp with rfl | hp
      · exact ⟨ps, n + 1, rfl⟩
      · exact hconv p hp

/-- Helper: pulling once from a map holding one passthrough resampler
with queue `x :: q` amid all-converter entries yields exactly `x` and
pops the queue. -/
theorem pullAll_pass_mid (interp : List ℚ → ℕ → ℚ)
    (hz : ∀ l n, interp l n = 0) (T : ℕ) (x : ℚ) (q : List ℚ) :
    ∀ (L₁ L₂ : RMap), convOnly L₁ → convOnly L₂ →
      ∃ L₁' L₂', pullAll interp (L₁ ++ (T, RState.pass (x :: q)) :: L₂)
          = some (x, L₁' ++ (T, RState.pass q) :: L₂')
        ∧ convOnly L₁' ∧ convOnly L₂' := by
  intro L₁
  induction L₁ with
  | nil =>
    intro L₂ _ h₂
    obtain ⟨L₂', hL₂', hconv⟩ := pullAll_convOnly interp hz L₂ h₂
    refine ⟨[], L₂', ?_, by intro p hp; simp at hp, hconv⟩
    simp [pullAll, rnext, hL₂']
  | cons e rest ih =>
    intro L₂ h₁ h₂
    obtain ⟨r, st⟩ := e
    obtain ⟨ps, n, hst⟩ := h₁ (r, st) (List.mem_cons_self _ _)
    simp only at hst
    subst hst
    obtain ⟨L₁', L₂', hpull, hc₁, hc₂⟩ :=
      ih L₂ (fun p hp => h₁ p (List.mem_cons_of_mem _ hp)) h₂
    refine ⟨(r, RState.conv ps (n + 1)) :: L₁', L₂', ?_, ?_, hc₂⟩
    · simp [pullAll, rnext, hpull, hz]
    · intro p hp
      rcases List.mem_cons.1 hp with rfl | hp
      · exact ⟨ps, n + 1, rfl⟩
      · exact hc₁ p hp

/-- Helper: from a mixer with an empty submission channel whose
resampler map holds one passthrough with queue `q` amid converters
contributing zeros, pulling `q.length` samples yields exactly `q`. -/
theorem nextN_pass_pull (interp : List ℚ → ℕ → ℚ)
    (hz : ∀ l n, interp l n = 0) (T sr : ℕ) (tgt : Option ℕ) :
    ∀ (q : List ℚ) (L₁ L₂ : RMap), convOnly L₁ → convOnly L₂ →
      (Mixer.nextN interp (mkMix sr tgt (L₁ ++ (T, RState.pass q) :: L₂))
          q.length).map Prod.fst
        = some q := by
  intro q
  induction q with
  | nil => intro L₁ L₂ _ _; rfl
  | cons x q ih =>
    intro L₁ L₂ h₁ h₂
    obtain ⟨L₁', L₂', hpull, hc₁, hc₂⟩ := pullAll_pass_mid interp hz T x q L₁ L₂ h₁ h₂
    have hnext : Mixer.next interp (mkMix sr tgt (L₁ ++ (T, RState.pass (x :: q)) :: L₂))
        = some (x, mkMix sr tgt (L₁' ++ (T, RState.pass q) :: L₂')) := by
      simp [Mixer.next, consumeSubmission, mkMix, hpull]
    rw [show (x :: q).length = q.length + 1 from rfl]
    simp only [Mixer.nextN, hnext, Option.bind_eq_bind, Option.some_bind]
    have hih := ih L₁' L₂' hc₁ hc₂
    cases hrec : Mixer.nextN interp (mkMix sr tgt (L₁' ++ (T, RState.pass q) :: L₂'))
        q.length with
    | none => rw [hrec] at hih; simp at hih
    | some p =>
      rw [hrec] at hih
      simp only [Option.map_some'] at hih
      simp [Option.some_inj.mp hih]

/-- C5: a mixer whose forced target rate `T` occurs among the consumed
submission's rates reproduces the `T`-rate samples bit-for-bit: the
`from == to` resampler is a plain queue (`mkResampler` yields
`RState.pass`), and when every other rate's converter contributes only
zeros, pulling `xs.length` output samples returns exactly `xs`. -/
theorem mixer_passthrough_exact (interp : List ℚ → ℕ → ℚ) (T : ℕ)
    (sub : Submission) (xs : List ℚ) (k : ℕ)
    (hz : ∀ l n, interp l n = 0)
    (hnd : (sub.entries.map Prod.fst).Nodup)
    (hT : sub.lookup T = some ⟨xs, k⟩) :
    (Mixer.nextN interp (Mixer.submit (Mixer.new (some T)) sub)
        xs.length).map Prod.fst
      = some xs := by
  obtain ⟨L₁, L₂, hsplit, hL₁T⟩ := lookup_split sub T ⟨xs, k⟩ hT
  have hkeys := hnd
  rw [hsplit, List.map_append, List.map_cons] at hkeys
  have hTnot : T ∉ L₂.map Prod.fst :=
    (List.nodup_cons.1 (List.nodup_append.1 hkeys).2.1).1
  have hL₂T : ∀ p ∈ L₂, p.1 ≠ T :=
    fun p hp heq => hTnot (heq ▸ List.mem_map_of_mem Prod.fst hp)
  have hconvL : ∀ (L : List (ℕ × MixedStream)), (∀ p ∈ L, p.1 ≠ T) →
      convOnly (L.map (fun e => (e.1, (mkResampler e.1 T).pushAll e.2.mixed))) := by
    intro L hLT p hp
    obtain ⟨e, he, rfl⟩ := List.mem_map.1 hp
    refine ⟨e.2.mixed, 0, ?_⟩
    simp [mkResampler, if_neg (hLT e he), pushAll_conv]
  cases xs with
  | nil => rfl
  | cons x q =>
    have hmap : sub.entries.map (fun e => (e.1, (mkResampler e.1 T).pushAll e.2.mixed))
        = L₁.map (fun e => (e.1, (mkResampler e.1 T).pushAll e.2.mixed))
          ++ (T, RState.pass (x :: q))
          :: L₂.map (fun e => (e.1, (mkResampler e.1 T).pushAll e.2.mixed)) := by
      rw [hsplit, List.map_append, List.map_cons]
      congr 1
      simp [mkResampler, pushAll_pass]
    have hstate : consumeSubmission (Mixer.submit (Mixer.new (some T)) sub)
        = mkMix T (some T)
            (L₁.map (fun e => (e.1, (mkResampler e.1 T).pushAll e.2.mixed))
              ++ (T, RState.pass (x :: q))
              :: L₂.map (fun e => (e.1, (mkResampler e.1 T).pushAll e.2.mixed))) := by
      rw [consume_forced_fresh T sub hnd, hmap]
    obtain ⟨L₁', L₂', hpull, hc₁, hc₂⟩ :=
      pullAll_pass_mid interp hz T x q
        (L₁.map (fun e => (e.1, (mkResampler e.1 T).pushAll e.2.mixed)))
        (L₂.map (fun e => (e.1, (mkResampler e.1 T).pushAll e.2.mixed)))
        (hconvL L₁ hL₁T) (hconvL L₂ hL₂T)
    have hnext : Mixer.next interp (Mixer.submit (Mixer.new (some T)) sub)
        = some (x, mkMix T (some T) (L₁' ++ (T, RState.pass q) :: L₂')) := by
      unfold Mixer.next
      rw [hstate]
      simp [mkMix, hpull]
    rw [show (x :: q).length = q.length + 1 from rfl]
    simp only [Mixer.nextN, hnext, Option.bind_eq_bind, Option.some_bind]
    have hih := nextN_pass_pull interp hz T T (some T) q L₁' L₂' hc₁ hc₂
    cases hrec : Mixer.nextN interp (mkMix T (some T) (L₁' ++ (T, RState.pass q) :: L₂'))
        q.length with
    | none => rw [hrec] at hih; simp at hih
    | some p =>
      rw [hrec] at hih
      simp only [Option.map_some'] at hih
      simp [Option.some_inj.mp hih]

/-- C5 witness: forced 44100 Hz mixer, submission carrying `[1, 2, 3]`
at 44100 Hz and zeros at 48000 Hz, zero interpolator: the three pulled
samples are exactly `[1, 2, 3]`. -/
theorem mixer_passthrough_exact_witness :
    (Mixer.nextN (fun _ _ => 0)
        (Mixer.submit (Mixer.new (some 44100))
          ((Submission.new.add 48000 [0, 0, 0]).add 44100 [1, 2, 3])) 3).map
        Prod.fst
      = some [1, 2, 3] :=
  mixer_passthrough_exact (fun _ _ => 0) 44100
    ((Submission.new.add 48000 [0, 0, 0]).add 44100 [1, 2, 3]) [1, 2, 3] 1
    (fun _ _ => rfl) (by decide) rfl


end Rawrscope
